import Mathlib

/-!
Shallow embedding of the client-side tabular view engine implemented in
`src/frontend/src/components/DataTable.tsx` (the `DataTable` React component):
search filtering, the sort comparator, the sort itself, and the header-click
state machine, together with proofs of the specified properties.

JavaScript values appearing in table records are modelled by `JValue`
(numbers as `Int`, which covers the integral fragment relevant here), string
conversion `String(v)` by `jsToString`, `toLowerCase` by `jsToLower`
(ASCII, as in the data this dashboard renders), and `Array.prototype.sort`
by a stable comparator-driven insertion sort `sortByCmp` (an element is
inserted before the first element `b` with `cmp a b ≤ 0`, which keeps the
original order of ties, matching the ECMAScript stable-sort contract).
-/

namespace DataTable

mutual

/-- A JavaScript value that can appear as a field of a table record. -/
inductive JValue where
  | vstr : String → JValue
  | vnum : Int → JValue
  | vbool : Bool → JValue
  | vnull : JValue
  | vundef : JValue
  | varr : JArr → JValue
  | vobj : JFields → JValue

/-- The elements of a JavaScript array value. -/
inductive JArr where
  | nil : JArr
  | cons : JValue → JArr → JArr

/-- The fields of a JavaScript object value. -/
inductive JFields where
  | nil : JFields
  | cons : String → JValue → JFields → JFields

end

/-- Build a JavaScript array value from a list of element values. -/
def jarrOf : List JValue → JArr
  | [] => JArr.nil
  | v :: vs => JArr.cons v (jarrOf vs)

/-- Build the field list of a JavaScript object value. -/
def jfieldsOf : List (String × JValue) → JFields
  | [] => JFields.nil
  | (k, v) :: ps => JFields.cons k v (jfieldsOf ps)

/-- JavaScript `s.toLowerCase()` (ASCII range, covering the data rendered by
this dashboard). -/
def jsToLower (s : String) : String :=
  String.mk (s.data.map Char.toLower)

/-- Tests whether `needle` occurs at the start of `hay` (character lists). -/
def charsStartWith : List Char → List Char → Bool
  | [], _ => true
  | _ :: _, [] => false
  | n :: ns, h :: hs => n == h && charsStartWith ns hs

/-- Tests whether `needle` occurs somewhere in `hay` (character lists). -/
def charsContain (needle : List Char) : List Char → Bool
  | [] => charsStartWith needle []
  | h :: hs => charsStartWith needle (h :: hs) || charsContain needle hs

/-- JavaScript `hay.includes(needle)`: substring containment. -/
def jsIncludes (hay needle : String) : Bool :=
  charsContain needle.data hay.data

mutual

/-- JavaScript `String(v)` for a `JValue`: strings unchanged, numbers in
decimal, booleans as `true`/`false`, `null`/`undefined` by name, arrays
joined by commas with nullish elements as empty strings
(`Array.prototype.toString` = `join(",")`), and plain objects as the fixed
placeholder `[object Object]`. -/
def jsToString : JValue → String
  | .vstr s => s
  | .vnum n => toString n
  | .vbool b => if b then "true" else "false"
  | .vnull => "null"
  | .vundef => "undefined"
  | .varr vs => String.intercalate "," (jsArrParts vs)
  | .vobj _ => "[object Object]"

/-- The per-element strings used when an array is converted by `join(",")`:
`null` and `undefined` elements become the empty string. -/
def jsArrParts : JArr → List String
  | .nil => []
  | .cons v vs =>
    (match v with
      | .vnull => ""
      | .vundef => ""
      | w => jsToString w) :: jsArrParts vs

end

/-- Nullish test `v === null || v === undefined`. -/
def isNullish : JValue → Bool
  | .vnull => true
  | .vundef => true
  | _ => false

/-- Numeric-type test `typeof v === 'number'`. -/
def isNum : JValue → Bool
  | .vnum _ => true
  | _ => false

/-- A table record: field names with their values, in insertion order. -/
abbrev JRecord := List (String × JValue)

/-- Property access `row[key]`: a missing key reads as `undefined`. -/
def getField (r : JRecord) (k : String) : JValue :=
  match r.find? (fun p => p.1 == k) with
  | some p => p.2
  | none => JValue.vundef

/-- The filter predicate of `DataTable.filteredData`:
`Object.values(row).some(v => String(v).toLowerCase().includes(searchTerm.toLowerCase()))`. -/
def rowMatches (term : String) (r : JRecord) : Bool :=
  (r.map (fun p => p.2)).any
    (fun v => jsIncludes (jsToLower (jsToString v)) (jsToLower term))

/-- The search-filtering step of `DataTable.filteredData`: the guard
`if (searchTerm)` skips filtering for the empty (falsy) search term. -/
def filterData (term : String) (data : List JRecord) : List JRecord :=
  if term = "" then data else data.filter (rowMatches term)

/-- The sort direction state, `'asc' | 'desc'`. -/
inductive SortDir where
  | asc : SortDir
  | desc : SortDir
deriving DecidableEq

/-- Lexicographic strict comparison of character lists by character code,
the order JavaScript `<` uses on strings. -/
def charsLt : List Char → List Char → Bool
  | _, [] => false
  | [], _ :: _ => true
  | a :: as, b :: bs => if a < b then true else if a = b then charsLt as bs else false

/-- JavaScript `a < b` on strings. -/
def jsStrLt (s t : String) : Bool :=
  charsLt s.data t.data

/-- Lexicographic weak comparison of character lists by character code:
the reflexive closure of `charsLt`. -/
def charsLe : List Char → List Char → Bool
  | [], _ => true
  | _ :: _, [] => false
  | a :: as, b :: bs => if a < b then true else if a = b then charsLe as bs else false

/-- Weak comparison `a ≤ b` in the lexicographic string order JavaScript `<` induces. -/
def jsStrLe (s t : String) : Bool :=
  charsLe s.data t.data

/-- The string branch of the sort comparator:
ascending `aStr < bStr ? -1 : aStr > bStr ? 1 : 0`, descending mirrored. -/
def strCompare (dir : SortDir) (aStr bStr : String) : Int :=
  match dir with
  | .asc => if jsStrLt aStr bStr then -1 else if jsStrLt bStr aStr then 1 else 0
  | .desc => if jsStrLt bStr aStr then -1 else if jsStrLt aStr bStr then 1 else 0

/-- The non-nullish part of the comparator: numeric difference when both
values are numbers (`typeof === 'number'`), otherwise comparison of the
lowercased string forms. -/
def cmpVal (dir : SortDir) (v w : JValue) : Int :=
  match v, w with
  | .vnum x, .vnum y =>
    (match dir with
      | .asc => x - y
      | .desc => y - x)
  | _, _ => strCompare dir (jsToLower (jsToString v)) (jsToLower (jsToString w))

/-- The full sort comparator of `DataTable.filteredData`: a nullish value on
the left returns `1`, a nullish value on the right returns `-1` (so nullish
values are pushed to the end in either direction), otherwise `cmpVal`. -/
def jsCompare (dir : SortDir) (k : String) (a b : JRecord) : Int :=
  let aVal := getField a k
  let bVal := getField b k
  if isNullish aVal then 1
  else if isNullish bVal then -1
  else cmpVal dir aVal bVal

/-- Insert `a` into `l` before the first element `b` with `cmp a b ≤ 0`:
one step of the stable comparator sort modelling `Array.prototype.sort`. -/
def sortInsert (cmp : α → α → Int) (a : α) : List α → List α
  | [] => [a]
  | b :: l => if cmp a b ≤ 0 then a :: b :: l else b :: sortInsert cmp a l

/-- Stable comparator-driven sort modelling `Array.prototype.sort(cmp)`. -/
def sortByCmp (cmp : α → α → Int) : List α → List α
  | [] => []
  | a :: l => sortInsert cmp a (sortByCmp cmp l)

/-- The local view state of one `DataTable` instance:
`searchTerm`, `sortKey` (`null` initially) and `sortDirection`. -/
structure ViewState where
  searchTerm : String
  sortKey : Option String
  sortDirection : SortDir

/-- The header-click handler `handleSort(key)`: toggle the direction when
`key` is already the active sort key, otherwise activate `key` ascending. -/
def handleSort (st : ViewState) (key : String) : ViewState :=
  if st.sortKey = some key then
    { st with
        sortDirection := if st.sortDirection = SortDir.asc then SortDir.desc else SortDir.asc }
  else
    { st with sortKey := some key, sortDirection := SortDir.asc }

/-- A user interaction with the table: clicking a sortable column header, or
typing in the search box. -/
inductive Event where
  | click : String → Event
  | search : String → Event

/-- One transition of the view state under a user interaction. -/
def step (st : ViewState) : Event → ViewState
  | .click k => handleSort st k
  | .search s => { st with searchTerm := s }

/-- The pure value of the `filteredData` memo: search filtering followed by
sorting. The guard `if (sortKey)` is false both for `null` and for the empty
string (JavaScript truthiness), in which cases no sorting happens. -/
def filteredData (st : ViewState) (data : List JRecord) : List JRecord :=
  let result := filterData st.searchTerm data
  match st.sortKey with
  | none => result
  | some k => if k = "" then result else sortByCmp (jsCompare st.sortDirection k) result

/-- An array store: JavaScript array objects identified by their index, so
that aliasing and in-place mutation are observable. -/
abbrev ArrStore := List (List JRecord)

/-- The `filteredData` computation with array identity made explicit, so the
absence of mutation of the input array is a provable statement. `d` is the id
of the `data` array in `store`. `result` starts as an alias of `data`;
`filter` allocates a fresh array; the spread `[...result]` allocates a fresh
copy which the in-place `sort` then overwrites (a `List.set` on the store).
Returns the final store and the id of the result array. -/
def runFiltered (store : ArrStore) (d : Nat) (st : ViewState) : ArrStore × Nat :=
  let step1 :=
    if st.searchTerm = "" then (store, d)
    else (store ++ [(store.getD d []).filter (rowMatches st.searchTerm)], store.length)
  let store1 := step1.1
  let r1 := step1.2
  match st.sortKey with
  | none => (store1, r1)
  | some k =>
    if k = "" then (store1, r1)
    else
      let copied := store1.getD r1 []
      let store2 := store1 ++ [copied]
      let id2 := store1.length
      (store2.set id2 (sortByCmp (jsCompare st.sortDirection k) copied), id2)

/-- The ordering policy the specification states for adjacent defined values
in the sorted output: numeric order when both values are numbers, otherwise
case-insensitive lexicographic order (`jsStrLe`) of their string forms;
descending is the mirror image. -/
def ordered (dir : SortDir) (v w : JValue) : Prop :=
  match v, w with
  | .vnum x, .vnum y =>
    (match dir with
      | .asc => x ≤ y
      | .desc => y ≤ x)
  | _, _ =>
    (match dir with
      | .asc => jsStrLe (jsToLower (jsToString v)) (jsToLower (jsToString w)) = true
      | .desc => jsStrLe (jsToLower (jsToString w)) (jsToLower (jsToString v)) = true)

/-! ### Order facts about the lexicographic string comparison -/

theorem charsLe_of_not_charsLt {as bs : List Char} (h : charsLt as bs = false) :
    charsLe bs as = true := by
  induction as generalizing bs with
  | nil =>
    cases bs with
    | nil => rfl
    | cons b bs => simp [charsLt] at h
  | cons a as ih =>
    cases bs with
    | nil => rfl
    | cons b bs =>
      simp only [charsLt] at h
      simp only [charsLe]
      by_cases hab : a < b
      · simp [hab] at h
      · by_cases heq : a = b
        · subst heq
          simp only [if_pos rfl, if_neg (lt_irrefl a)]
          simp only [if_neg hab, if_pos rfl] at h
          exact ih h
        · have hba : b < a := by
            rcases lt_trichotomy a b with h1 | h1 | h1
            · exact absurd h1 hab
            · exact absurd h1 heq
            · exact h1
          simp [hba]

theorem charsLe_of_charsLt {as bs : List Char} (h : charsLt as bs = true) :
    charsLe as bs = true := by
  induction as generalizing bs with
  | nil =>
    cases bs with
    | nil => simp [charsLt] at h
    | cons b bs => rfl
  | cons a as ih =>
    cases bs with
    | nil => simp [charsLt] at h
    | cons b bs =>
      simp only [charsLt] at h
      simp only [charsLe]
      by_cases hab : a < b
      · simp [hab]
      · by_cases heq : a = b
        · subst heq
          simp only [if_neg hab, if_pos rfl] at h ⊢
          exact ih h
        · simp [hab, heq] at h

theorem jsStrLe_of_not_jsStrLt {s t : String} (h : jsStrLt s t = false) :
    jsStrLe t s = true :=
  charsLe_of_not_charsLt h

theorem jsStrLe_of_jsStrLt {s t : String} (h : jsStrLt s t = true) :
    jsStrLe s t = true :=
  charsLe_of_charsLt h

/-! ### Generic facts about the comparator-driven insertion sort -/

theorem mem_sortInsert {cmp : α → α → Int} {a x : α} :
    ∀ {l : List α}, x ∈ sortInsert cmp a l ↔ x = a ∨ x ∈ l := by
  intro l
  induction l with
  | nil => simp [sortInsert]
  | cons b l ih =>
    simp only [sortInsert]
    by_cases hc : cmp a b ≤ 0
    · simp [hc]
    · simp only [if_neg hc, List.mem_cons, ih]
      tauto

theorem length_sortInsert (cmp : α → α → Int) (a : α) :
    ∀ l : List α, (sortInsert cmp a l).length = l.length + 1 := by
  intro l
  induction l with
  | nil => rfl
  | cons b l ih =>
    simp only [sortInsert]
    by_cases hc : cmp a b ≤ 0
    · simp [hc]
    · simp [hc, ih]

theorem perm_sortInsert (cmp : α → α → Int) (a : α) :
    ∀ l : List α, (sortInsert cmp a l).Perm (a :: l) := by
  intro l
  induction l with
  | nil => exact List.Perm.refl _
  | cons b l ih =>
    simp only [sortInsert]
    by_cases hc : cmp a b ≤ 0
    · simp [hc]
    · rw [if_neg hc]
      exact ((ih.cons b).trans (List.Perm.swap a b l))

theorem perm_sortByCmp (cmp : α → α → Int) :
    ∀ l : List α, (sortByCmp cmp l).Perm l := by
  intro l
  induction l with
  | nil => exact List.Perm.refl _
  | cons a l ih =>
    exact (perm_sortInsert cmp a (sortByCmp cmp l)).trans (ih.cons a)

theorem pairwise_sortInsert {cmp : α → α → Int} {N : α → Bool} {a : α}
    (h1 : ∀ b, N a = true → 0 < cmp a b)
    (h2 : ∀ b, N a = false → N b = true → cmp a b ≤ 0) :
    ∀ {l : List α}, l.Pairwise (fun x y => N x = true → N y = true) →
      (sortInsert cmp a l).Pairwise (fun x y => N x = true → N y = true) := by
  intro l
  induction l with
  | nil => intro _; exact List.pairwise_singleton _ a
  | cons b l ih =>
    intro hp
    rcases List.pairwise_cons.mp hp with ⟨hb, hl⟩
    simp only [sortInsert]
    by_cases hc : cmp a b ≤ 0
    · rw [if_pos hc]
      refine List.pairwise_cons.mpr ⟨?_, hp⟩
      intro x _ hNa
      exact absurd (h1 b hNa) (by omega)
    · rw [if_neg hc]
      refine List.pairwise_cons.mpr ⟨?_, ih hl⟩
      intro x hx
      rcases mem_sortInsert.mp hx with rfl | hxl
      · intro hNb
        by_cases hNa : N x = true
        · exact hNa
        · exact absurd (h2 b (by simpa using hNa) hNb) hc
      · exact hb x hxl

theorem pairwise_sortByCmp {cmp : α → α → Int} {N : α → Bool}
    (h1 : ∀ a b, N a = true → 0 < cmp a b)
    (h2 : ∀ a b, N a = false → N b = true → cmp a b ≤ 0) :
    ∀ l : List α, (sortByCmp cmp l).Pairwise (fun x y => N x = true → N y = true) := by
  intro l
  induction l with
  | nil => exact List.Pairwise.nil
  | cons a l ih =>
    exact pairwise_sortInsert (h1 a) (h2 a) ih

theorem head?_sortInsert (cmp : α → α → Int) (a : α) :
    ∀ l : List α, (sortInsert cmp a l).head? = some a ∨ (sortInsert cmp a l).head? = l.head? := by
  intro l
  cases l with
  | nil => exact Or.inl rfl
  | cons b l =>
    simp only [sortInsert]
    by_cases hc : cmp a b ≤ 0
    · rw [if_pos hc]; exact Or.inl rfl
    · rw [if_neg hc]; exact Or.inr rfl

theorem chain_sortInsert {cmp : α → α → Int} {a : α} :
    ∀ {l : List α}, l.Chain' (fun x y => cmp x y ≤ 0 ∨ 0 < cmp y x) →
      (sortInsert cmp a l).Chain' (fun x y => cmp x y ≤ 0 ∨ 0 < cmp y x) := by
  intro l
  induction l with
  | nil => intro _; exact List.chain'_singleton a
  | cons b l ih =>
    intro hch
    rcases List.chain'_cons'.mp hch with ⟨hhead, htail⟩
    simp only [sortInsert]
    by_cases hc : cmp a b ≤ 0
    · rw [if_pos hc]
      exact List.chain'_cons'.mpr ⟨fun y hy => by simp at hy; subst hy; exact Or.inl hc,
        hch⟩
    · rw [if_neg hc]
      refine List.chain'_cons'.mpr ⟨?_, ih htail⟩
      intro y hy
      rcases head?_sortInsert cmp a l with hh | hh
      · rw [hh] at hy
        simp at hy; subst hy
        exact Or.inr (by omega)
      · rw [hh] at hy
        exact hhead y hy

theorem chain_sortByCmp (cmp : α → α → Int) :
    ∀ l : List α, (sortByCmp cmp l).Chain' (fun x y => cmp x y ≤ 0 ∨ 0 < cmp y x) := by
  intro l
  induction l with
  | nil => exact List.chain'_nil
  | cons a l ih => exact chain_sortInsert ih

theorem chain_append_left {R : α → α → Prop} :
    ∀ {l t : List α}, (l ++ t).Chain' R → l.Chain' R := by
  intro l
  induction l with
  | nil => intro t _; exact List.chain'_nil
  | cons a l ih =>
    intro t hch
    rcases List.chain'_cons'.mp hch with ⟨hhead, htail⟩
    refine List.chain'_cons'.mpr ⟨?_, ih htail⟩
    intro y hy
    apply hhead
    cases l with
    | nil => simp at hy
    | cons c l' => simpa using hy

theorem filter_eq_nil_of_none {p : α → Bool} :
    ∀ {l : List α}, (∀ x ∈ l, p x = false) → l.filter p = [] := by
  intro l
  induction l with
  | nil => intro _; rfl
  | cons a l ih =>
    intro h
    rw [List.filter_cons, if_neg (by simp [h a (by simp)]), ih]
    intro x hx
    exact h x (by simp [hx])

theorem null_suffix_split {N : α → Bool} :
    ∀ {l : List α}, l.Pairwise (fun x y => N x = true → N y = true) →
      ∃ t, l = l.filter (fun x => !N x) ++ t ∧ ∀ x ∈ t, N x = true := by
  intro l
  induction l with
  | nil => intro _; exact ⟨[], rfl, by simp⟩
  | cons a l ih =>
    intro hp
    rcases List.pairwise_cons.mp hp with ⟨ha, hl⟩
    by_cases hN : N a = true
    · refine ⟨a :: l, ?_, ?_⟩
      · have hnil : l.filter (fun x => !N x) = [] :=
          filter_eq_nil_of_none (fun x hx => by simp [ha x hx hN])
        rw [List.filter_cons, if_neg (by simp [hN]), hnil, List.nil_append]
      · intro x hx
        rcases List.mem_cons.mp hx with rfl | hx
        · exact hN
        · exact ha x hx hN
    · rcases ih hl with ⟨t, heq, ht⟩
      refine ⟨t, ?_, ht⟩
      rw [List.filter_cons, if_pos (by simp [hN])]
      simpa using congrArg (fun s => a :: s) heq

/-! ### Facts about the DataTable comparator -/

theorem jsCompare_nullish_left {dir : SortDir} {k : String} {a : JRecord} (b : JRecord)
    (h : isNullish (getField a k) = true) : jsCompare dir k a b = 1 := by
  simp [jsCompare, h]

theorem jsCompare_nullish_right {dir : SortDir} {k : String} {a b : JRecord}
    (ha : isNullish (getField a k) = false) (hb : isNullish (getField b k) = true) :
    jsCompare dir k a b = -1 := by
  simp [jsCompare, ha, hb]

theorem jsCompare_defined {dir : SortDir} {k : String} {a b : JRecord}
    (ha : isNullish (getField a k) = false) (hb : isNullish (getField b k) = false) :
    jsCompare dir k a b = cmpVal dir (getField a k) (getField b k) := by
  simp [jsCompare, ha, hb]

theorem jsCompare_pos_of_null {dir : SortDir} {k : String} (a b : JRecord)
    (h : isNullish (getField a k) = true) : 0 < jsCompare dir k a b := by
  rw [jsCompare_nullish_left b h]
  omega

theorem jsCompare_le_of_null {dir : SortDir} {k : String} (a b : JRecord)
    (ha : isNullish (getField a k) = false) (hb : isNullish (getField b k) = true) :
    jsCompare dir k a b ≤ 0 := by
  rw [jsCompare_nullish_right ha hb]
  omega

theorem strCompare_asc_le {x y : String} (h : strCompare SortDir.asc x y ≤ 0) :
    jsStrLe x y = true := by
  by_cases h1 : jsStrLt x y = true
  · exact jsStrLe_of_jsStrLt h1
  · by_cases h2 : jsStrLt y x = true
    · simp [strCompare, h1, h2] at h
    · exact jsStrLe_of_not_jsStrLt (by simpa using h2)

theorem strCompare_asc_pos {x y : String} (h : 0 < strCompare SortDir.asc y x) :
    jsStrLe x y = true := by
  by_cases h1 : jsStrLt y x = true
  · simp [strCompare, h1] at h
  · by_cases h2 : jsStrLt x y = true
    · exact jsStrLe_of_jsStrLt h2
    · simp [strCompare, h1, h2] at h

theorem cmpVal_le_ordered {dir : SortDir} {v w : JValue} (h : cmpVal dir v w ≤ 0) :
    ordered dir v w := by
  cases dir <;> cases v <;> cases w <;>
    simp only [cmpVal, ordered] at h ⊢ <;>
    first
      | omega
      | exact strCompare_asc_le h

theorem cmpVal_pos_ordered {dir : SortDir} {v w : JValue} (h : 0 < cmpVal dir w v) :
    ordered dir v w := by
  cases dir <;> cases v <;> cases w <;>
    simp only [cmpVal, ordered] at h ⊢ <;>
    first
      | omega
      | exact strCompare_asc_pos h

theorem jsCompare_adjacent_ordered {dir : SortDir} {k : String} {a b : JRecord}
    (ha : isNullish (getField a k) = false) (hb : isNullish (getField b k) = false)
    (h : jsCompare dir k a b ≤ 0 ∨ 0 < jsCompare dir k b a) :
    ordered dir (getField a k) (getField b k) := by
  rcases h with h | h
  · rw [jsCompare_defined ha hb] at h
    exact cmpVal_le_ordered h
  · rw [jsCompare_defined hb ha] at h
    exact cmpVal_pos_ordered h

theorem strCompare_total (dir : SortDir) (x y : String) :
    strCompare dir x y = -1 ∨ strCompare dir x y = 0 ∨ strCompare dir x y = 1 := by
  cases dir <;> simp only [strCompare] <;> split_ifs <;> simp

theorem cmpVal_eq_strCompare {dir : SortDir} {v w : JValue}
    (hmix : isNum v = false ∨ isNum w = false) :
    cmpVal dir v w = strCompare dir (jsToLower (jsToString v)) (jsToLower (jsToString w)) := by
  cases v <;> cases w <;> first
    | rfl
    | simp [isNum] at hmix

theorem chain_unguard {R R' : α → α → Prop} {p : α → Bool}
    (himp : ∀ x y, p x = true → p y = true → R x y → R' x y) :
    ∀ {l : List α}, l.Chain' R → (∀ x ∈ l, p x = true) → l.Chain' R' := by
  intro l
  induction l with
  | nil => intro _ _; exact List.chain'_nil
  | cons a l ih =>
    intro hch hall
    rcases List.chain'_cons'.mp hch with ⟨hhead, htail⟩
    refine List.chain'_cons'.mpr ⟨?_, ih htail ?_⟩
    · intro y hy
      have hyl : y ∈ l := by
        cases l with
        | nil => simp at hy
        | cons c l' => simp at hy; simp [hy]
      exact himp a y (hall a (by simp)) (hall y (by simp [hyl])) (hhead y hy)
    · intro x hx
      exact hall x (by simp [hx])

/-! ### The claims -/

/-- C1: for every data array and non-empty search term, the filtering step of
`DataTable` retains a record iff at least one of its field values, converted
to a lowercase string, contains the lowercased search term as a substring;
an excluded record therefore contains it in no field. -/
theorem C1_filter_membership (t : String) (d : List JRecord) (r : JRecord) (ht : t ≠ "") :
    r ∈ filterData t d ↔
      r ∈ d ∧
        ((r.map (fun p => p.2)).any
          (fun v => jsIncludes (jsToLower (jsToString v)) (jsToLower t))) = true := by
  simp only [filterData, if_neg ht, List.mem_filter, rowMatches]

/-- Witness for C1 at a concrete table and search term. -/
theorem C1_filter_membership_witness :
    ([("i", JValue.vstr "Tofu")] ∈
        filterData "to" [[("i", JValue.vstr "Tofu")], [("i", JValue.vstr "Rice")]] ↔
      [("i", JValue.vstr "Tofu")] ∈
          [[("i", JValue.vstr "Tofu")], [("i", JValue.vstr "Rice")]] ∧
        (([("i", JValue.vstr "Tofu")] : JRecord).map (fun p => p.2)).any
          (fun v => jsIncludes (jsToLower (jsToString v)) (jsToLower "to")) = true) :=
  C1_filter_membership "to" [[("i", JValue.vstr "Tofu")], [("i", JValue.vstr "Rice")]]
    [("i", JValue.vstr "Tofu")] (by decide)

/-- C2: in the sorted output, a record whose sort-key value is nullish is
never followed by a record whose sort-key value is defined — equivalently,
every defined-valued record precedes every nullish-valued record — for every
data array, sort key, and both directions alike. -/
theorem C2_defined_before_null (data : List JRecord) (k : String) (dir : SortDir) :
    (sortByCmp (jsCompare dir k) data).Pairwise
      (fun a b => isNullish (getField a k) = true → isNullish (getField b k) = true) :=
  pairwise_sortByCmp
    (fun a b hN => jsCompare_pos_of_null a b hN)
    (fun a b hNa hNb => jsCompare_le_of_null a b hNa hNb)
    data

/-- C3: the sequence of defined (non-nullish) sort-key values in the sorted
output is adjacently ordered by the comparator policy: numerically when both
adjacent values are numbers, otherwise by case-insensitive lexicographic
comparison of their string forms; ascending is non-decreasing and descending
non-increasing. -/
theorem C3_sorted_by_comparator_policy (data : List JRecord) (k : String) (dir : SortDir) :
    (((sortByCmp (jsCompare dir k) data).filter
        (fun r => !isNullish (getField r k))).map (fun r => getField r k)).Chain'
      (ordered dir) := by
  have hch := chain_sortByCmp (jsCompare dir k) data
  have hpw : (sortByCmp (jsCompare dir k) data).Pairwise
      (fun a b => isNullish (getField a k) = true → isNullish (getField b k) = true) :=
    pairwise_sortByCmp
      (fun a b hN => jsCompare_pos_of_null a b hN)
      (fun a b hNa hNb => jsCompare_le_of_null a b hNa hNb) data
  rcases null_suffix_split hpw with ⟨t, heq, ht⟩
  have hchf : ((sortByCmp (jsCompare dir k) data).filter
      (fun r => !isNullish (getField r k))).Chain'
      (fun x y => jsCompare dir k x y ≤ 0 ∨ 0 < jsCompare dir k y x) := by
    apply chain_append_left (t := t)
    rw [← heq]
    exact hch
  have hg : ((sortByCmp (jsCompare dir k) data).filter
      (fun r => !isNullish (getField r k))).Chain'
      (fun a b => ordered dir (getField a k) (getField b k)) :=
    chain_unguard
      (fun x y hx hy hS =>
        jsCompare_adjacent_ordered (by simpa using hx) (by simpa using hy) hS)
      hchf
      (fun x hx => (List.mem_filter.mp hx).2)
  exact (List.chain'_map (fun r => getField r k)).mpr hg

/-- C6: filtering by the empty search term is the identity on the data. -/
theorem C6_empty_search_is_identity (data : List JRecord) :
    filterData "" data = data := rfl

/-- C4 fails on plain objects: a record whose only field is an object whose
nested contents contain the search term is nevertheless excluded, because
`String(value)` is the fixed placeholder, not a structural stringification. -/
theorem C4_counterexample :
    filterData "tofu"
        [[("info", JValue.vobj (jfieldsOf [("name", JValue.vstr "tofu")]))]] = [] ∧
    jsToString (JValue.vobj (jfieldsOf [("name", JValue.vstr "tofu")])) = "[object Object]" :=
  ⟨rfl, rfl⟩

/-- C4 (amended): an object-valued field participates in the search only
through the fixed placeholder `[object Object]` — the outcome is independent
of its nested contents — while an array-valued field is stringified
structurally (elements joined by commas), so the term can match the nested
contents of arrays. -/
theorem C4_array_structural_object_placeholder (m : JFields) (s term : String) :
    rowMatches term [("f", JValue.vobj m)]
        = jsIncludes (jsToLower "[object Object]") (jsToLower term) ∧
    rowMatches term [("f", JValue.varr (JArr.cons (JValue.vstr s) JArr.nil))]
        = jsIncludes (jsToLower s) (jsToLower term) := by
  constructor
  · simp [rowMatches, jsToString]
  · simp [rowMatches, jsToString, jsArrParts, String.intercalate, String.intercalate.go]

/-- C5 fails as stated: a sequence that is sorted ascending with two nullish
records at the end (here `5, null, undefined`) is not left identical by a
re-sort — the comparator orders each nullish value after the other, so the
nullish suffix is permuted. -/
theorem C5_counterexample :
    isNullish (getField [("s", JValue.vnull)] "s") = true ∧
    isNullish (getField [("s", JValue.vundef)] "s") = true ∧
    isNullish (getField [("s", JValue.vnum 5)] "s") = false ∧
    sortByCmp (jsCompare SortDir.asc "s")
        [[("s", JValue.vnum 5)], [("s", JValue.vnull)], [("s", JValue.vundef)]]
      ≠ [[("s", JValue.vnum 5)], [("s", JValue.vnull)], [("s", JValue.vundef)]] := by
  refine ⟨rfl, rfl, rfl, ?_⟩
  intro h
  simp [sortByCmp, sortInsert, jsCompare, getField, isNullish, List.find?] at h

/-- A comparator-sorted input is a fixed point of `sortByCmp`. -/
theorem sortByCmp_of_chain {cmp : α → α → Int} :
    ∀ {l : List α}, l.Chain' (fun a b => cmp a b ≤ 0) → sortByCmp cmp l = l := by
  intro l
  induction l with
  | nil => intro _; rfl
  | cons a l ih =>
    intro h
    rcases List.chain'_cons'.mp h with ⟨hhead, htail⟩
    simp only [sortByCmp]
    rw [ih htail]
    cases l with
    | nil => rfl
    | cons b l' =>
      simp only [sortInsert]
      rw [if_pos (hhead b rfl)]

/-- C5 (amended): ascending sort by a key is the identity on every sequence
in which each adjacent pair already compares `≤ 0` under the ascending
comparator — i.e. a sequence sorted ascending with at most one nullish
record, necessarily at the end. (Two adjacent nullish records compare `1`
in both orders, so a nullish suffix of length ≥ 2 is permuted; see the
counterexample.) -/
theorem C5_sort_idempotent_on_sorted (k : String) (data : List JRecord)
    (h : data.Chain' (fun a b => jsCompare SortDir.asc k a b ≤ 0)) :
    sortByCmp (jsCompare SortDir.asc k) data = data :=
  sortByCmp_of_chain h

/-- Witness for the amended C5 on a concrete sorted table. -/
theorem C5_sort_idempotent_on_sorted_witness :
    sortByCmp (jsCompare SortDir.asc "s")
        [[("s", JValue.vnum 1)], [("s", JValue.vnum 2)], [("s", JValue.vnull)]]
      = [[("s", JValue.vnum 1)], [("s", JValue.vnum 2)], [("s", JValue.vnull)]] :=
  C5_sort_idempotent_on_sorted "s"
    [[("s", JValue.vnum 1)], [("s", JValue.vnum 2)], [("s", JValue.vnull)]]
    (List.chain'_cons.mpr ⟨by decide,
      List.chain'_cons.mpr ⟨by decide, List.chain'_singleton _⟩⟩)

/-- C7: clicking a sortable header whose key is the active sort key keeps the
key and toggles the direction; clicking a different key activates it with the
direction reset to ascending. -/
theorem C7_header_click_transition (st : ViewState) (key : String) :
    (st.sortKey = some key →
        (handleSort st key).sortKey = st.sortKey ∧
        ((handleSort st key).sortDirection = SortDir.desc ↔
          st.sortDirection = SortDir.asc)) ∧
    (st.sortKey ≠ some key →
        (handleSort st key).sortKey = some key ∧
        (handleSort st key).sortDirection = SortDir.asc) := by
  constructor
  · intro h
    refine ⟨by simp [handleSort, h], ?_⟩
    cases hdir : st.sortDirection <;> simp [handleSort, h, hdir]
  · intro h
    exact ⟨by simp [handleSort, h], by simp [handleSort, h]⟩

/-- Witness for C7: toggling on the active key and activating a new key. -/
theorem C7_header_click_transition_witness :
    ((handleSort (ViewState.mk "" (some "a") SortDir.asc) "a").sortKey = some "a" ∧
      ((handleSort (ViewState.mk "" (some "a") SortDir.asc) "a").sortDirection = SortDir.desc ↔
        SortDir.asc = SortDir.asc)) ∧
    ((handleSort (ViewState.mk "" (some "a") SortDir.asc) "b").sortKey = some "b" ∧
      (handleSort (ViewState.mk "" (some "a") SortDir.asc) "b").sortDirection = SortDir.asc) :=
  ⟨(C7_header_click_transition (ViewState.mk "" (some "a") SortDir.asc) "a").1 rfl,
    (C7_header_click_transition (ViewState.mk "" (some "a") SortDir.asc) "b").2 (by decide)⟩

/-- C9: for defined sort-key values that are not both numbers, the comparator
equals its case-insensitive string branch, and it always returns one of
`-1`, `0`, `1` — it is total and never throws. -/
theorem C9_mixed_types_use_string_branch (dir : SortDir) (k : String) (a b : JRecord)
    (ha : isNullish (getField a k) = false) (hb : isNullish (getField b k) = false)
    (hmix : isNum (getField a k) = false ∨ isNum (getField b k) = false) :
    jsCompare dir k a b
        = strCompare dir (jsToLower (jsToString (getField a k)))
            (jsToLower (jsToString (getField b k))) ∧
    (jsCompare dir k a b = -1 ∨ jsCompare dir k a b = 0 ∨ jsCompare dir k a b = 1) := by
  have heq : jsCompare dir k a b
      = strCompare dir (jsToLower (jsToString (getField a k)))
          (jsToLower (jsToString (getField b k))) := by
    rw [jsCompare_defined ha hb, cmpVal_eq_strCompare hmix]
  refine ⟨heq, ?_⟩
  rw [heq]
  exact strCompare_total dir _ _

/-- Witness for C9 on a number/string pair. -/
theorem C9_mixed_types_use_string_branch_witness :
    jsCompare SortDir.asc "s" [("s", JValue.vnum 1)] [("s", JValue.vstr "x")]
        = strCompare SortDir.asc
            (jsToLower (jsToString (getField [("s", JValue.vnum 1)] "s")))
            (jsToLower (jsToString (getField [("s", JValue.vstr "x")] "s"))) ∧
    (jsCompare SortDir.asc "s" [("s", JValue.vnum 1)] [("s", JValue.vstr "x")] = -1 ∨
      jsCompare SortDir.asc "s" [("s", JValue.vnum 1)] [("s", JValue.vstr "x")] = 0 ∨
      jsCompare SortDir.asc "s" [("s", JValue.vnum 1)] [("s", JValue.vstr "x")] = 1) :=
  C9_mixed_types_use_string_branch SortDir.asc "s"
    [("s", JValue.vnum 1)] [("s", JValue.vstr "x")] rfl rfl (Or.inr rfl)

/-- Any view state reached by interactions from a state with an active sort
key still has an active sort key. -/
theorem sortKey_isSome_foldl :
    ∀ (evs : List Event) (s : ViewState), s.sortKey.isSome = true →
      ((evs.foldl step s).sortKey).isSome = true := by
  intro evs
  induction evs with
  | nil => intro s hs; exact hs
  | cons e evs ih =>
    intro s hs
    have hs' : ((step s e).sortKey).isSome = true := by
      cases e with
      | click k =>
        simp only [step, handleSort]
        by_cases h : s.sortKey = some k
        · simp [h]
        · simp [h]
      | search q => simpa using hs
    simpa using ih (step s e) hs'

theorem getD_append_of_lt (l t : List α) (dflt : α) :
    ∀ i : Nat, i < l.length → (l ++ t).getD i dflt = l.getD i dflt := by
  induction l with
  | nil => intro i h; simp at h
  | cons a l ih =>
    intro i h
    cases i with
    | zero => rfl
    | succ j =>
      simp only [List.cons_append, List.getD_cons_succ]
      exact ih j (by simpa using Nat.lt_of_succ_lt_succ h)

theorem getD_append_len (l : List α) (x : α) (t : List α) (dflt : α) :
    (l ++ x :: t).getD l.length dflt = x := by
  induction l with
  | nil => rfl
  | cons a l ih => simpa using ih

theorem set_append_len (l : List α) (x y : α) :
    (l ++ [x]).set l.length y = l ++ [y] := by
  induction l with
  | nil => rfl
  | cons a l ih => simp [ih]

/-- C8: computing the filtered-and-sorted view never mutates the input
`data` array: in the explicit array store, the entry at `data`'s id is
unchanged, and the array returned holds exactly the pure
filter-then-sort result. The spread `[...result]` confines the in-place
`sort` to a fresh copy. -/
theorem C8_input_array_unchanged (store : ArrStore) (d : Nat) (st : ViewState)
    (hd : d < store.length) :
    (runFiltered store d st).1.getD d [] = store.getD d [] ∧
    (runFiltered store d st).1.getD (runFiltered store d st).2 []
      = filteredData st (store.getD d []) := by
  rcases st with ⟨term, skey, sdir⟩
  simp only [runFiltered, filteredData, filterData]
  by_cases hterm : term = ""
  · simp only [hterm, if_pos rfl]
    cases skey with
    | none => exact ⟨rfl, rfl⟩
    | some k =>
      by_cases hk : k = ""
      · simp only [hk, if_pos rfl]
        exact ⟨rfl, rfl⟩
      · simp only [if_neg hk]
        rw [set_append_len]
        constructor
        · exact getD_append_of_lt store _ [] d hd
        · exact getD_append_len store _ [] []
  · simp only [if_neg hterm]
    cases skey with
    | none =>
      constructor
      · exact getD_append_of_lt store _ [] d hd
      · exact getD_append_len store _ [] []
    | some k =>
      by_cases hk : k = ""
      · simp only [hk, if_pos rfl]
        constructor
        · exact getD_append_of_lt store _ [] d hd
        · exact getD_append_len store _ [] []
      · simp only [if_neg hk]
        rw [set_append_len]
        constructor
        · rw [getD_append_of_lt _ _ [] d (by simpa using Nat.lt_of_lt_of_le hd (Nat.le_succ _))]
          exact getD_append_of_lt store _ [] d hd
        · rw [getD_append_len]
          rw [getD_append_len]

/-- Witness for C8 on a concrete one-array store. -/
theorem C8_input_array_unchanged_witness :
    (runFiltered [[[("s", JValue.vnum 2)], [("s", JValue.vnum 1)]]] 0
          (ViewState.mk "" (some "s") SortDir.asc)).1.getD 0 []
        = ([[[("s", JValue.vnum 2)], [("s", JValue.vnum 1)]]] : ArrStore).getD 0 [] ∧
    (runFiltered [[[("s", JValue.vnum 2)], [("s", JValue.vnum 1)]]] 0
          (ViewState.mk "" (some "s") SortDir.asc)).1.getD
        (runFiltered [[[("s", JValue.vnum 2)], [("s", JValue.vnum 1)]]] 0
          (ViewState.mk "" (some "s") SortDir.asc)).2 []
      = filteredData (ViewState.mk "" (some "s") SortDir.asc)
          (([[[("s", JValue.vnum 2)], [("s", JValue.vnum 1)]]] : ArrStore).getD 0 []) :=
  C8_input_array_unchanged [[[("s", JValue.vnum 2)], [("s", JValue.vnum 1)]]] 0
    (ViewState.mk "" (some "s") SortDir.asc) (by decide)

/-- C10: after a first header click, the sort key is `some _` in every state
reachable by any further sequence of header clicks and search edits — the
table never returns to its initial unsorted (`sortKey = null`) state. -/
theorem C10_sort_key_never_null_again (st : ViewState) (key : String) (evs : List Event) :
    ((evs.foldl step (step st (Event.click key))).sortKey).isSome = true := by
  apply sortKey_isSome_foldl
  simp only [step, handleSort]
  by_cases h : st.sortKey = some key
  · simp [h]
  · simp [h]

end DataTable
